import Mathlib

/-!
Verification of the heap bump allocator and shell of a small bare-metal
kernel (sources: `src/kernel/src/allocator.rs`, `src/kernel/src/main.rs`).

The Rust code is shallowly embedded: `usize` values are natural numbers
with explicit wrapping (`% 2^64`) and saturating operations where the
source uses them; the global mutable allocator state (`HEAP_START`,
`OFFSET`) becomes an explicit `HeapState` record threaded through the
operations; the null-pointer result of `alloc` becomes `Option Nat`.
-/

set_option maxRecDepth 10000

namespace Kernel

/-- Number of values of `usize` on the 64-bit target: `2^64`. -/
def USIZE_CARD : Nat := 2 ^ 64

/-- `usize::MAX`. -/
def USIZE_MAX : Nat := USIZE_CARD - 1

/-- Rust `usize::saturating_add`. -/
def satAdd (a b : Nat) : Nat := min (a + b) USIZE_MAX

/-- Rust `usize::saturating_sub` (truncated subtraction, as in `Nat`). -/
def satSub (a b : Nat) : Nat := a - b

/-- `pub const HEAP_SIZE: usize = 100 * 1024;` -/
def HEAP_SIZE : Nat := 100 * 1024

/-- `fn align_up(addr: usize, align: usize) -> usize {
      let mask = align - 1; (addr + mask) & !mask }`.
`align - 1` is modelled by its release-mode wrapping value
`(align + (2^64 - 1)) % 2^64`, `!mask` by the 64-bit complement
`(2^64 - 1) - mask`, and `addr + mask` wraps modulo `2^64`. -/
def align_up (addr align : Nat) : Nat :=
  let mask := (align + (USIZE_CARD - 1)) % USIZE_CARD
  ((addr + mask) % USIZE_CARD) &&& ((USIZE_CARD - 1) - mask)

/-- Rust `core::alloc::Layout`: a size and an alignment. -/
structure Layout where
  size : Nat
  align : Nat
  deriving DecidableEq, Repr

/-- The allocator's global mutable state: `HEAP_START` and `OFFSET`. -/
structure HeapState where
  heap_start : Nat
  offset : Nat
  deriving DecidableEq, Repr

/-- `let current = heap_start.saturating_add(OFFSET)` followed by
`let aligned = align_up(current, layout.align())` in `alloc`. -/
def alignedAddr (s : HeapState) (l : Layout) : Nat :=
  align_up (satAdd s.heap_start s.offset) l.align

/-- `let new_offset = aligned.saturating_sub(heap_start)
       .saturating_add(layout.size())` in `alloc`. -/
def newOffset (s : HeapState) (l : Layout) : Nat :=
  satAdd (satSub (alignedAddr s l) s.heap_start) l.size

/-- `DummyAllocator::alloc`: on `new_offset > HEAP_SIZE` report failure
(null pointer, modelled as `none`) leaving the state unchanged; otherwise
store the new offset and return the aligned address. -/
def alloc (s : HeapState) (l : Layout) : Option Nat × HeapState :=
  if newOffset s l > HEAP_SIZE then
    (none, s)
  else
    (some (alignedAddr s l), { s with offset := newOffset s l })

/-- `DummyAllocator::dealloc`: a no-op on the allocator state (it only
writes a diagnostic line to the serial port). -/
def dealloc (s : HeapState) (_ptr : Nat) (_layout : Layout) : HeapState := s

/-- `pub fn init_heap(offset: usize)`: sets `HEAP_START`, resets `OFFSET`. -/
def init_heap (offset : Nat) : HeapState :=
  { heap_start := offset, offset := 0 }

/-- `pub fn memstat() -> (usize, usize)`: `(OFFSET.min(HEAP_SIZE), HEAP_SIZE)`. -/
def memstat (s : HeapState) : Nat × Nat :=
  (min s.offset HEAP_SIZE, HEAP_SIZE)

/-- A `Layout` as Rust's `Layout` type guarantees it (alignment is a power
of two), together with the no-overflow side condition that the arena
`[heap_start, heap_start + HEAP_SIZE)` plus one alignment of slack fits in
the `usize` range. -/
def LayoutOK (heap_start : Nat) (l : Layout) : Prop :=
  (∃ k, l.align = 2 ^ k) ∧ heap_start + HEAP_SIZE + l.align ≤ USIZE_CARD

/-- Heap states reachable from `init_heap` by `alloc` / `dealloc` calls. -/
inductive Reachable : HeapState → Prop
  | init (offset : Nat) : Reachable (init_heap offset)
  | alloc_step (s : HeapState) (l : Layout) :
      Reachable s → Reachable (alloc s l).2
  | dealloc_step (s : HeapState) (p : Nat) (l : Layout) :
      Reachable s → Reachable (dealloc s p l)

/-! ### Bitwise characterisation of `align_up` -/

/-- Masking with `2^n - 2^k` (ones in bit positions `k … n-1`) clears the
low `k` bits of an `n`-bit value. -/
theorem land_ones_range (x n k : Nat) (hkn : k ≤ n) (hx : x < 2 ^ n) :
    x &&& (2 ^ n - 2 ^ k) = x / 2 ^ k * 2 ^ k := by
  have hsplit : 2 ^ n - 2 ^ k = 2 ^ k * (2 ^ (n - k) - 1) := by
    have hpow : 2 ^ k * 2 ^ (n - k) = 2 ^ n := by
      rw [← pow_add, Nat.add_sub_cancel' hkn]
    rw [Nat.mul_sub, hpow, Nat.mul_one]
  apply Nat.eq_of_testBit_eq
  intro i
  rw [Nat.testBit_and, hsplit, Nat.testBit_mul_pow_two]
  rw [Nat.mul_comm (x / 2 ^ k), ← Nat.shiftRight_eq_div_pow,
    Nat.testBit_mul_pow_two, Nat.testBit_shiftRight, Nat.testBit_two_pow_sub_one]
  by_cases hik : k ≤ i
  · have hki : k + (i - k) = i := by omega
    rw [hki]
    by_cases hin : i < n
    · simp [hik, Nat.lt_sub_of_add_lt, show i - k < n - k by omega]
    · have hxi : x.testBit i = false :=
        Nat.testBit_lt_two_pow (lt_of_lt_of_le hx (Nat.pow_le_pow_right (by omega) (by omega)))
      simp [hxi]
  · simp [hik]

/-- For a power-of-two alignment and no `usize` overflow, `align_up`
rounds up to the next multiple of the alignment. -/
theorem align_up_pow2 (addr k : Nat) (h : addr + 2 ^ k ≤ USIZE_CARD) :
    align_up addr (2 ^ k) = (addr + 2 ^ k - 1) / 2 ^ k * 2 ^ k := by
  have hU : USIZE_CARD = 2 ^ 64 := rfl
  have hpos : 0 < 2 ^ k := Nat.pos_pow_of_pos k (by omega)
  have hk64 : 2 ^ k ≤ 2 ^ 64 := by omega
  have hkle : k ≤ 64 := (Nat.pow_le_pow_iff_right (a := 2) (by omega)).mp hk64
  have hmask : (2 ^ k + (USIZE_CARD - 1)) % USIZE_CARD = 2 ^ k - 1 := by
    have hsum : 2 ^ k + (USIZE_CARD - 1) = (2 ^ k - 1) + 1 * USIZE_CARD := by omega
    rw [hsum, Nat.add_mul_mod_self_right, Nat.mod_eq_of_lt (by omega)]
  have hinner : (addr + (2 ^ k - 1)) % USIZE_CARD = addr + (2 ^ k - 1) :=
    Nat.mod_eq_of_lt (by omega)
  have hcompl : (USIZE_CARD - 1) - (2 ^ k - 1) = 2 ^ 64 - 2 ^ k := by omega
  have hx : addr + (2 ^ k - 1) < 2 ^ 64 := by omega
  simp only [align_up]
  rw [hmask, hinner, hcompl, land_ones_range _ 64 k hkle hx]
  have harg : addr + (2 ^ k - 1) = addr + 2 ^ k - 1 := by omega
  rw [harg]

/-- The rounded-up address is at least the original address. -/
theorem align_up_pow2_ge (addr k : Nat) (h : addr + 2 ^ k ≤ USIZE_CARD) :
    addr ≤ align_up addr (2 ^ k) := by
  rw [align_up_pow2 addr k h]
  have hpos : 0 < 2 ^ k := Nat.pos_pow_of_pos k (by omega)
  have hlow := Nat.lt_div_mul_add (a := addr + 2 ^ k - 1) hpos
  omega

/-- The rounded-up address stays below the original address plus the
alignment. -/
theorem align_up_pow2_le (addr k : Nat) (h : addr + 2 ^ k ≤ USIZE_CARD) :
    align_up addr (2 ^ k) ≤ addr + 2 ^ k - 1 := by
  rw [align_up_pow2 addr k h]
  exact Nat.div_mul_le_self _ _

/-- The rounded-up address is a multiple of the alignment. -/
theorem align_up_pow2_dvd (addr k : Nat) (h : addr + 2 ^ k ≤ USIZE_CARD) :
    2 ^ k ∣ align_up addr (2 ^ k) := by
  rw [align_up_pow2 addr k h]
  exact dvd_mul_left _ _

/-! ### Single-step facts about `alloc` -/

/-- `alloc` never changes `HEAP_START`. -/
theorem alloc_heap_start (s : HeapState) (l : Layout) :
    (alloc s l).2.heap_start = s.heap_start := by
  unfold alloc
  split <;> rfl

/-- `alloc` keeps the cursor within the capacity. -/
theorem alloc_offset_le (s : HeapState) (l : Layout) (h : s.offset ≤ HEAP_SIZE) :
    (alloc s l).2.offset ≤ HEAP_SIZE := by
  unfold alloc
  split
  · exact h
  · next hc => simpa using Nat.le_of_not_lt hc

/-- On the out-of-memory branch `alloc` returns the null sentinel and the
state unchanged. -/
theorem alloc_fail (s : HeapState) (l : Layout) (h : newOffset s l > HEAP_SIZE) :
    alloc s l = (none, s) := by
  unfold alloc
  rw [if_pos h]

/-- On the in-capacity branch `alloc` returns the aligned address and
stores the new cursor. -/
theorem alloc_succ (s : HeapState) (l : Layout) (h : ¬ newOffset s l > HEAP_SIZE) :
    alloc s l = (some (alignedAddr s l), { s with offset := newOffset s l }) := by
  unfold alloc
  rw [if_neg h]

/-- Bounds on the aligned address for a valid layout: it sits between the
current bump pointer and the bump pointer plus one alignment, and it is a
multiple of the alignment. -/
theorem alignedAddr_bounds (s : HeapState) (l : Layout)
    (hoff : s.offset ≤ HEAP_SIZE) (hok : LayoutOK s.heap_start l) :
    s.heap_start + s.offset ≤ alignedAddr s l ∧
    alignedAddr s l ≤ s.heap_start + s.offset + l.align - 1 ∧
    l.align ∣ alignedAddr s l := by
  obtain ⟨⟨k, hk⟩, hov⟩ := hok
  have hU : USIZE_CARD = 2 ^ 64 := rfl
  have hM : USIZE_MAX = USIZE_CARD - 1 := rfl
  have hpos : 0 < 2 ^ k := Nat.pos_pow_of_pos k (by omega)
  have hcur : satAdd s.heap_start s.offset = s.heap_start + s.offset := by
    simp only [satAdd]
    rw [min_eq_left]
    rw [hk] at hov
    omega
  have hbound : (s.heap_start + s.offset) + 2 ^ k ≤ USIZE_CARD := by
    rw [hk] at hov
    omega
  have h1 := align_up_pow2_ge (s.heap_start + s.offset) k hbound
  have h2 := align_up_pow2_le (s.heap_start + s.offset) k hbound
  have h3 := align_up_pow2_dvd (s.heap_start + s.offset) k hbound
  unfold alignedAddr
  rw [hcur, hk]
  exact ⟨h1, by omega, h3⟩

/-- Full specification of a successful allocation on a valid layout:
the returned address is aligned, starts at or after the bump pointer,
its block ends exactly at the new bump pointer, the new cursor stays
within capacity and does not decrease, and the base is untouched. -/
theorem alloc_success_spec (s : HeapState) (l : Layout) (a : Nat) (s' : HeapState)
    (hoff : s.offset ≤ HEAP_SIZE) (hok : LayoutOK s.heap_start l)
    (hsucc : alloc s l = (some a, s')) :
    l.align ∣ a ∧
    s.heap_start + s.offset ≤ a ∧
    a + l.size = s.heap_start + s'.offset ∧
    s'.offset ≤ HEAP_SIZE ∧
    s'.heap_start = s.heap_start ∧
    s.offset ≤ s'.offset := by
  by_cases hc : newOffset s l > HEAP_SIZE
  · rw [alloc_fail s l hc] at hsucc
    simp at hsucc
  · rw [alloc_succ s l hc] at hsucc
    simp only [Prod.mk.injEq, Option.some.injEq] at hsucc
    obtain ⟨ha, hs'⟩ := hsucc
    subst ha
    subst hs'
    obtain ⟨hge, hle, hdvd⟩ := alignedAddr_bounds s l hoff hok
    have hU : USIZE_CARD = 2 ^ 64 := rfl
    have hM : USIZE_MAX = USIZE_CARD - 1 := rfl
    have hH : HEAP_SIZE = 102400 := rfl
    have hno : newOffset s l ≤ HEAP_SIZE := Nat.le_of_not_lt hc
    have hbig : HEAP_SIZE < USIZE_MAX := by
      rw [hH, hM, hU]
      have hp : (102401:Nat) < 2 ^ 64 := by norm_num
      omega
    have hmin : newOffset s l = (alignedAddr s l - s.heap_start) + l.size := by
      have hd : newOffset s l = min ((alignedAddr s l - s.heap_start) + l.size) USIZE_MAX := rfl
      rw [hd] at hno ⊢
      rcases le_or_lt ((alignedAddr s l - s.heap_start) + l.size) USIZE_MAX with hx | hx
      · rw [min_eq_left hx]
      · rw [min_eq_right (le_of_lt hx)] at hno
        omega
    refine ⟨hdvd, hge, ?_, hno, rfl, ?_⟩
    · show alignedAddr s l + l.size = s.heap_start + newOffset s l
      rw [hmin]
      omega
    · show s.offset ≤ newOffset s l
      rw [hmin]
      omega

/-- `dealloc` is the identity on the allocator state. -/
theorem dealloc_eq (s : HeapState) (p : Nat) (l : Layout) : dealloc s p l = s := rfl

/-- Every reachable heap state satisfies the arena invariant
`OFFSET ≤ HEAP_SIZE`. -/
theorem reachable_offset_le (s : HeapState) (h : Reachable s) :
    s.offset ≤ HEAP_SIZE := by
  induction h with
  | init offset => exact Nat.zero_le _
  | alloc_step s l _ ih => exact alloc_offset_le s l ih
  | dealloc_step s p l _ ih => exact ih

/-! ### Sequences of allocations -/

/-- Run a sequence of allocation requests, collecting the returned
addresses (`none` = null pointer) and the final state. -/
def runAllocs (s : HeapState) : List Layout → List (Option Nat) × HeapState
  | [] => ([], s)
  | l :: ls =>
    let r := alloc s l
    let rest := runAllocs r.2 ls
    (r.1 :: rest.1, rest.2)

/-- The successfully allocated blocks of a run: each returned address
paired with the layout it was requested for. -/
def successBlocks : List Layout → List (Option Nat) → List (Nat × Layout)
  | l :: ls, some a :: rs => (a, l) :: successBlocks ls rs
  | _ :: ls, none :: rs => successBlocks ls rs
  | _, _ => []

/-- If `alloc` returned the null sentinel, the state is unchanged. -/
theorem alloc_none_state (s : HeapState) (l : Layout)
    (hr : (alloc s l).1 = none) : (alloc s l).2 = s := by
  by_cases hc : newOffset s l > HEAP_SIZE
  · rw [alloc_fail s l hc]
  · rw [alloc_succ s l hc] at hr
    simp at hr

/-- Master lemma for allocation runs: the base never changes, the cursor
only grows and stays within capacity, every successful block is aligned
and lies inside the window the cursor swept, and blocks are returned in
increasing, pairwise disjoint positions. -/
theorem runAllocs_spec (reqs : List Layout) (s : HeapState)
    (hoff : s.offset ≤ HEAP_SIZE) (hall : ∀ l ∈ reqs, LayoutOK s.heap_start l) :
    (runAllocs s reqs).2.heap_start = s.heap_start ∧
    s.offset ≤ (runAllocs s reqs).2.offset ∧
    (runAllocs s reqs).2.offset ≤ HEAP_SIZE ∧
    (∀ b ∈ successBlocks reqs (runAllocs s reqs).1,
        b.2.align ∣ b.1 ∧
        s.heap_start + s.offset ≤ b.1 ∧
        b.1 + b.2.size ≤ s.heap_start + (runAllocs s reqs).2.offset) ∧
    (successBlocks reqs (runAllocs s reqs).1).Pairwise
      (fun b c => b.1 + b.2.size ≤ c.1) := by
  induction reqs generalizing s with
  | nil =>
    refine ⟨rfl, le_refl _, hoff, ?_, ?_⟩
    · intro b hb
      simp [successBlocks] at hb
    · simp [successBlocks, runAllocs]
  | cons l ls ih =>
    have hmem : LayoutOK s.heap_start l := hall l (by simp)
    have hs1hs : (alloc s l).2.heap_start = s.heap_start := alloc_heap_start s l
    have hs1off : (alloc s l).2.offset ≤ HEAP_SIZE := alloc_offset_le s l hoff
    have hallls : ∀ l' ∈ ls, LayoutOK (alloc s l).2.heap_start l' := by
      intro l' hl'
      rw [hs1hs]
      exact hall l' (by simp [hl'])
    obtain ⟨ihhs, ihmono, ihle, ihblocks, ihpw⟩ := ih (alloc s l).2 hs1off hallls
    have hrun1 : (runAllocs s (l :: ls)).1 =
        (alloc s l).1 :: (runAllocs (alloc s l).2 ls).1 := rfl
    have hrun2 : (runAllocs s (l :: ls)).2 = (runAllocs (alloc s l).2 ls).2 := rfl
    rcases hr : (alloc s l).1 with _ | a
    · -- failed allocation: state unchanged, block list unchanged
      have hstate : (alloc s l).2 = s := alloc_none_state s l hr
      rw [hstate] at ihhs ihmono ihle ihblocks ihpw
      have hblocks : successBlocks (l :: ls) (runAllocs s (l :: ls)).1 =
          successBlocks ls (runAllocs s ls).1 := by
        rw [hrun1, hr, hstate]
        rfl
      refine ⟨?_, ?_, ?_, ?_, ?_⟩
      · rw [hrun2, hstate]
        exact ihhs
      · rw [hrun2, hstate]
        exact ihmono
      · rw [hrun2, hstate]
        exact ihle
      · intro b hb
        rw [hblocks] at hb
        rw [hrun2, hstate]
        exact ihblocks b hb
      · rw [hblocks]
        exact ihpw
    · -- successful allocation
      have hsucc : alloc s l = (some a, (alloc s l).2) := by
        rw [← hr]
      obtain ⟨hdvd, hge, hend, _, _, hmono1⟩ :=
        alloc_success_spec s l a (alloc s l).2 hoff hmem hsucc
      have hblocks : successBlocks (l :: ls) (runAllocs s (l :: ls)).1 =
          (a, l) :: successBlocks ls (runAllocs (alloc s l).2 ls).1 := by
        rw [hrun1, hr]
        rfl
      refine ⟨?_, ?_, ?_, ?_, ?_⟩
      · rw [hrun2, ihhs, hs1hs]
      · rw [hrun2]
        exact le_trans hmono1 ihmono
      · rw [hrun2]
        exact ihle
      · intro b hb
        rw [hblocks] at hb
        rcases List.mem_cons.mp hb with hb | hb
        · subst hb
          refine ⟨hdvd, hge, ?_⟩
          rw [hrun2]
          show a + l.size ≤ s.heap_start + (runAllocs (alloc s l).2 ls).2.offset
          rw [hend]
          exact Nat.add_le_add_left ihmono _
        · obtain ⟨hbd, hbge, hble⟩ := ihblocks b hb
          rw [hs1hs] at hbge hble
          refine ⟨hbd, ?_, ?_⟩
          · exact le_trans (Nat.add_le_add_left hmono1 _) hbge
          · rw [hrun2]
            exact hble
      · rw [hblocks]
        refine List.Pairwise.cons ?_ ihpw
        intro b hb
        obtain ⟨_, hbge, _⟩ := ihblocks b hb
        rw [hs1hs] at hbge
        show a + l.size ≤ b.1
        rw [hend]
        exact hbge

/-! ### Shell embedding (`src/kernel/src/main.rs`) -/

/-- `pc_keyboard::DecodedKey`, restricted to what `Shell::handle_key`
distinguishes: a Unicode character, the raw Backspace key, or any other
raw key. -/
inductive DecodedKey
  | unicode : Char → DecodedKey
  | rawBackspace : DecodedKey
  | rawOther : DecodedKey
  deriving DecidableEq, Repr

/-- One write to the screen: `write!` output, `writeln!` output (a line),
or a `screenwriter().clear()` call. -/
inductive OutEvent
  | write : String → OutEvent
  | writeLine : String → OutEvent
  | clearScreen : OutEvent
  deriving DecidableEq, Repr

/-- `struct Shell { buf: String, ticks: u64 }`; the line buffer is
modelled as its character list. -/
structure Shell where
  buf : List Char
  ticks : Nat
  deriving DecidableEq, Repr

/-- Accumulator-based splitter behind `split_whitespace`. -/
def splitWsAux : List Char → List Char → List (List Char)
  | [], acc => if acc.isEmpty then [] else [acc.reverse]
  | c :: cs, acc =>
    if c.isWhitespace then
      if acc.isEmpty then splitWsAux cs []
      else acc.reverse :: splitWsAux cs []
    else splitWsAux cs (c :: acc)

/-- Rust `str::split_whitespace`: the whitespace-delimited words of the
input, in order, with empty fragments skipped. -/
def split_whitespace (cs : List Char) : List (List Char) :=
  splitWsAux cs []

/-- Rust `[&str]::join(" ")` on the argument words. -/
def joinWords : List (List Char) → List Char
  | [] => []
  | [w] => w
  | w :: ws => w ++ ' ' :: joinWords ws

/-- `Shell::prompt`: `write!(Writer, "> ")`. -/
def prompt : List OutEvent := [OutEvent.write "> "]

/-- `Shell::redraw_line`: erase `2 + buf.len()` cells with spaces after a
carriage return, then reprint the prompt and the buffer. -/
def redraw_line (buf : List Char) : List OutEvent :=
  let len := 2 + buf.length
  [OutEvent.write "\r"] ++ List.replicate len (OutEvent.write " ") ++
    [OutEvent.write "\r", OutEvent.write "> ", OutEvent.write (String.mk buf)]

/-- The `match cmd { ... }` dispatch inside `Shell::execute`: the output
produced for the first word `cmd` and the remaining words `args`. -/
def runCmd (sh : Shell) (h : HeapState) (cmd : List Char)
    (args : List (List Char)) : List OutEvent :=
  if cmd = ("echo").data then
    if args.isEmpty then [] else [OutEvent.writeLine (String.mk (joinWords args))]
  else if cmd = ("clear").data then
    [OutEvent.clearScreen]
  else if cmd = ("ticks").data then
    [OutEvent.writeLine (Nat.repr sh.ticks)]
  else if cmd = ("memstat").data then
    [OutEvent.writeLine ("used: " ++ Nat.repr (memstat h).1 ++ " / " ++
      Nat.repr (memstat h).2 ++ " bytes")]
  else if cmd = ("help").data then
    [OutEvent.writeLine "Built-ins:",
     OutEvent.writeLine "  echo [text...]  - print text",
     OutEvent.writeLine "  clear           - clear screen",
     OutEvent.writeLine "  ticks           - show timer ticks",
     OutEvent.writeLine "  memstat         - show allocator usage",
     OutEvent.writeLine "  help            - this message"]
  else
    [OutEvent.writeLine ("unknown: " ++ String.mk cmd)]

/-- `Shell::execute`: take the buffer (clearing it), split it on
whitespace and dispatch the first word; with no first word nothing is
printed. The heap state is read (by `memstat`) but never written, so it
is returned unchanged. -/
def execute (sh : Shell) (h : HeapState) : Shell × HeapState × List OutEvent :=
  match split_whitespace sh.buf with
  | [] => ({ sh with buf := [] }, h, [])
  | cmd :: args => ({ sh with buf := [] }, h, runCmd sh h cmd args)

/-- `Shell::handle_key`: newline runs `execute`, clears the buffer and
reprints the prompt; a printable character is appended and echoed;
Backspace pops the last character (no-op when empty) and redraws. -/
def handle_key (sh : Shell) (h : HeapState) (k : DecodedKey) :
    Shell × HeapState × List OutEvent :=
  match k with
  | DecodedKey.unicode c =>
    if c = '\n' then
      let r := execute sh h
      ({ r.1 with buf := [] }, r.2.1, OutEvent.writeLine "" :: r.2.2 ++ prompt)
    else
      ({ sh with buf := sh.buf ++ [c] }, h, [OutEvent.write (String.mk [c])])
  | DecodedKey.rawBackspace =>
    if sh.buf.isEmpty then (sh, h, [])
    else
      let buf' := sh.buf.dropLast
      ({ sh with buf := buf' }, h, redraw_line buf')
  | DecodedKey.rawOther => (sh, h, [])

/-- `fn tick()`: `sh.ticks = sh.ticks.wrapping_add(1)` on the `u64`
counter. -/
def tick (sh : Shell) : Shell :=
  { sh with ticks := (sh.ticks + 1) % USIZE_CARD }

/-! ### A one-line screen model for the redraw behaviour -/

/-- Overwrite position `i` of a display line (extending with blanks when
writing past the end). -/
def setAt (l : List Char) (i : Nat) (c : Char) : List Char :=
  if i < l.length then l.set i c
  else l ++ List.replicate (i - l.length) ' ' ++ [c]

/-- Apply one character to a (line, column) display: carriage return
moves to column 0, any other character overwrites the cell at the cursor
and advances. -/
def applyChar (st : List Char × Nat) (c : Char) : List Char × Nat :=
  if c = '\r' then (st.1, 0) else (setAt st.1 st.2 c, st.2 + 1)

/-- The character stream an output event sends to the display. -/
def evChars : OutEvent → List Char
  | OutEvent.write s => s.data
  | OutEvent.writeLine s => s.data ++ ['\n']
  | OutEvent.clearScreen => []

/-- Run a list of output events over the display model. -/
def applyEvents (st : List Char × Nat) (evs : List OutEvent) : List Char × Nat :=
  ((evs.map evChars).flatten).foldl applyChar st

/-! ### Mixed alloc/dealloc operation sequences -/

/-- One call into the global allocator. -/
inductive HeapOp
  | opAlloc : Layout → HeapOp
  | opDealloc : Nat → Layout → HeapOp
  deriving DecidableEq, Repr

/-- Effect of one operation on the allocator state. -/
def stepOp (s : HeapState) : HeapOp → HeapState
  | HeapOp.opAlloc l => (alloc s l).2
  | HeapOp.opDealloc p l => dealloc s p l

/-- Run a sequence of allocator operations. -/
def runOps (s : HeapState) (ops : List HeapOp) : HeapState :=
  ops.foldl stepOp s

/-- Validity of one operation's layout relative to the arena base. -/
def OpOK (heap_start : Nat) : HeapOp → Prop
  | HeapOp.opAlloc l => LayoutOK heap_start l
  | HeapOp.opDealloc _ _ => True

/-- The cursor never decreases across an `alloc` call (valid layout,
cursor within capacity). -/
theorem alloc_offset_mono (s : HeapState) (l : Layout)
    (hok : LayoutOK s.heap_start l) (hoff : s.offset ≤ HEAP_SIZE) :
    s.offset ≤ (alloc s l).2.offset := by
  by_cases hc : newOffset s l > HEAP_SIZE
  · rw [alloc_fail s l hc]
  · have h := alloc_success_spec s l (alignedAddr s l)
      { s with offset := newOffset s l } hoff hok (alloc_succ s l hc)
    rw [alloc_succ s l hc]
    exact h.2.2.2.2.2

/-- Running any valid operation sequence preserves the base, keeps the
cursor within capacity and never decreases it. -/
theorem runOps_spec (ops : List HeapOp) (s : HeapState)
    (hoff : s.offset ≤ HEAP_SIZE) (hall : ∀ op ∈ ops, OpOK s.heap_start op) :
    (runOps s ops).heap_start = s.heap_start ∧
    s.offset ≤ (runOps s ops).offset ∧
    (runOps s ops).offset ≤ HEAP_SIZE := by
  induction ops generalizing s with
  | nil => exact ⟨rfl, le_refl _, hoff⟩
  | cons op ops ih =>
    have hstep_hs : (stepOp s op).heap_start = s.heap_start := by
      cases op with
      | opAlloc l => exact alloc_heap_start s l
      | opDealloc p l => rfl
    have hstep_le : (stepOp s op).offset ≤ HEAP_SIZE := by
      cases op with
      | opAlloc l => exact alloc_offset_le s l hoff
      | opDealloc p l => exact hoff
    have hstep_mono : s.offset ≤ (stepOp s op).offset := by
      cases op with
      | opAlloc l =>
        exact alloc_offset_mono s l
          (hall (HeapOp.opAlloc l) (List.mem_cons_self _ _)) hoff
      | opDealloc p l => exact le_refl _
    have hallrest : ∀ o ∈ ops, OpOK (stepOp s op).heap_start o := by
      intro o ho
      rw [hstep_hs]
      exact hall o (by simp [ho])
    obtain ⟨ih1, ih2, ih3⟩ := ih (stepOp s op) hstep_le hallrest
    have hrun : runOps s (op :: ops) = runOps (stepOp s op) ops := rfl
    rw [hrun]
    exact ⟨by rw [ih1, hstep_hs], le_trans hstep_mono ih2, ih3⟩

/-- All-whitespace input splits into no words. -/
theorem splitWsAux_all_ws (cs : List Char)
    (h : ∀ c ∈ cs, c.isWhitespace = true) : splitWsAux cs [] = [] := by
  induction cs with
  | nil => rfl
  | cons c cs ih =>
    have hc : c.isWhitespace = true := h c (by simp)
    show splitWsAux (c :: cs) [] = []
    rw [splitWsAux, if_pos hc]
    have hempty : ([] : List Char).isEmpty = true := rfl
    rw [if_pos hempty]
    exact ih (fun d hd => h d (by simp [hd]))

/-! ### Claim theorems -/

/-- C1: for every allocation request sequence of valid layouts run from a
freshly initialised arena, every address returned by `alloc` is aligned
to its requested alignment, its block `[address, address+size)` lies
within `[base, base + HEAP_SIZE)`, and the returned blocks are pairwise
disjoint. (This holds for all sequences, whether or not the cumulative
aligned size stays within capacity: failed requests return the null
sentinel and produce no block.) -/
theorem alloc_run_correct (base : Nat) (reqs : List Layout)
    (hall : ∀ l ∈ reqs, LayoutOK base l) :
    (∀ b ∈ successBlocks reqs (runAllocs (init_heap base) reqs).1,
        b.2.align ∣ b.1 ∧ base ≤ b.1 ∧ b.1 + b.2.size ≤ base + HEAP_SIZE) ∧
    (successBlocks reqs (runAllocs (init_heap base) reqs).1).Pairwise
      (fun b c => b.1 + b.2.size ≤ c.1 ∨ c.1 + c.2.size ≤ b.1) := by
  have hall' : ∀ l ∈ reqs, LayoutOK (init_heap base).heap_start l := hall
  obtain ⟨hhs, hmono, hle, hblocks, hpw⟩ :=
    runAllocs_spec reqs (init_heap base) (Nat.zero_le _) hall'
  constructor
  · intro b hb
    obtain ⟨hd, hge, hlt⟩ := hblocks b hb
    have h0 : (init_heap base).heap_start + (init_heap base).offset = base := rfl
    have h1 : (init_heap base).heap_start = base := rfl
    rw [h0] at hge
    rw [h1] at hlt
    exact ⟨hd, hge, le_trans hlt (Nat.add_le_add_left hle _)⟩
  · exact hpw.imp (fun h => Or.inl h)

/-- C1 witness: a concrete two-request run from base 0. -/
theorem alloc_run_correct_witness :
    ((Layout.mk 4 1).align ∣ 0 ∧ 0 ≤ 0 ∧ 0 + (Layout.mk 4 1).size ≤ 0 + HEAP_SIZE) ∧
    ((Layout.mk 3 8).align ∣ 8 ∧ 0 ≤ 8 ∧ 8 + (Layout.mk 3 8).size ≤ 0 + HEAP_SIZE) := by
  have hall : ∀ l ∈ [Layout.mk 4 1, Layout.mk 3 8], LayoutOK 0 l := by
    intro l hl
    simp only [List.mem_cons, List.not_mem_nil, or_false] at hl
    rcases hl with rfl | rfl
    · exact ⟨⟨0, rfl⟩, by decide⟩
    · exact ⟨⟨3, rfl⟩, by decide⟩
  have h := alloc_run_correct 0 [Layout.mk 4 1, Layout.mk 3 8] hall
  exact ⟨h.1 (0, Layout.mk 4 1) (by decide), h.1 (8, Layout.mk 3 8) (by decide)⟩

/-- C2: if the aligned offset plus the requested size exceeds
`HEAP_SIZE`, `alloc` returns the null sentinel with the cursor
unchanged; otherwise it returns the aligned address and stores the new
cursor, which (for a valid layout within the invariant) never moves
backwards. -/
theorem alloc_branches (s : HeapState) (l : Layout) :
    (newOffset s l > HEAP_SIZE → alloc s l = (none, s)) ∧
    (¬ newOffset s l > HEAP_SIZE →
      alloc s l = (some (alignedAddr s l), { s with offset := newOffset s l })) ∧
    (LayoutOK s.heap_start l → s.offset ≤ HEAP_SIZE → s.offset ≤ newOffset s l) := by
  refine ⟨alloc_fail s l, alloc_succ s l, ?_⟩
  intro hok hoff
  obtain ⟨hge, _, _⟩ := alignedAddr_bounds s l hoff hok
  have hH : HEAP_SIZE = 102400 := rfl
  have hM : USIZE_MAX = USIZE_CARD - 1 := rfl
  have hU : USIZE_CARD = 2 ^ 64 := rfl
  have hp : (102401:Nat) < 2 ^ 64 := by norm_num
  have hd : newOffset s l =
      min ((alignedAddr s l - s.heap_start) + l.size) USIZE_MAX := rfl
  rw [hd]
  rcases le_total ((alignedAddr s l - s.heap_start) + l.size) USIZE_MAX with hx | hx
  · rw [min_eq_left hx]
    omega
  · rw [min_eq_right hx]
    omega

/-- C2 witness: one failing and one succeeding allocation, and cursor
monotonicity at a concrete state. -/
theorem alloc_branches_witness :
    alloc ⟨0, 102400⟩ (Layout.mk 1 1) = (none, ⟨0, 102400⟩) ∧
    alloc (init_heap 0) (Layout.mk 4 1) =
      (some (alignedAddr (init_heap 0) (Layout.mk 4 1)),
       { init_heap 0 with offset := newOffset (init_heap 0) (Layout.mk 4 1) }) ∧
    (init_heap 0).offset ≤ newOffset (init_heap 0) (Layout.mk 4 1) := by
  refine ⟨(alloc_branches ⟨0, 102400⟩ (Layout.mk 1 1)).1 (by decide),
          (alloc_branches (init_heap 0) (Layout.mk 4 1)).2.1 (by decide),
          (alloc_branches (init_heap 0) (Layout.mk 4 1)).2.2 ⟨⟨0, rfl⟩, by decide⟩ (by decide)⟩

/-- C3: after `init_heap` the cursor is 0 (hence within capacity); every
reachable state satisfies `OFFSET ≤ HEAP_SIZE`; `alloc` preserves the
invariant, `dealloc` leaves the cursor untouched, and (for a valid
layout) `alloc` never decreases the cursor. -/
theorem heap_invariant (off p : Nat) (s : HeapState) (l : Layout) :
    (init_heap off).offset = 0 ∧
    (Reachable s → s.offset ≤ HEAP_SIZE) ∧
    (s.offset ≤ HEAP_SIZE → (alloc s l).2.offset ≤ HEAP_SIZE) ∧
    (dealloc s p l).offset = s.offset ∧
    (LayoutOK s.heap_start l → s.offset ≤ HEAP_SIZE →
      s.offset ≤ (alloc s l).2.offset) :=
  ⟨rfl, reachable_offset_le s, alloc_offset_le s l, rfl,
   fun hok hoff => alloc_offset_mono s l hok hoff⟩

/-- C3 witness: the invariant facts at a concrete state and layout. -/
theorem heap_invariant_witness :
    (init_heap 7).offset = 0 ∧
    (init_heap 0).offset ≤ HEAP_SIZE ∧
    (alloc ⟨0, 5⟩ (Layout.mk 4 2)).2.offset ≤ HEAP_SIZE ∧
    (dealloc ⟨0, 5⟩ 3 (Layout.mk 4 2)).offset = (⟨0, 5⟩ : HeapState).offset ∧
    (⟨0, 5⟩ : HeapState).offset ≤ (alloc ⟨0, 5⟩ (Layout.mk 4 2)).2.offset := by
  refine ⟨(heap_invariant 7 3 ⟨0, 5⟩ (Layout.mk 4 2)).1,
          (heap_invariant 7 3 (init_heap 0) (Layout.mk 4 2)).2.1 (Reachable.init 0),
          (heap_invariant 7 3 ⟨0, 5⟩ (Layout.mk 4 2)).2.2.1 (by decide),
          (heap_invariant 7 3 ⟨0, 5⟩ (Layout.mk 4 2)).2.2.2.1,
          (heap_invariant 7 3 ⟨0, 5⟩ (Layout.mk 4 2)).2.2.2.2 ⟨⟨1, rfl⟩, by decide⟩ (by decide)⟩

/-- C6: `dealloc` mutates nothing — neither the cursor nor the base —
and any subsequent allocation sequence returns exactly the same results
and final state as if `dealloc` had not been called. -/
theorem dealloc_frame (s : HeapState) (p : Nat) (l : Layout) (reqs : List Layout) :
    dealloc s p l = s ∧
    (dealloc s p l).offset = s.offset ∧
    (dealloc s p l).heap_start = s.heap_start ∧
    runAllocs (dealloc s p l) reqs = runAllocs s reqs :=
  ⟨rfl, rfl, rfl, rfl⟩

/-- C7: `memstat` always reports `used ≤ total`, and the `used`
component is monotonically non-decreasing across any valid sequence of
`alloc` and `dealloc` operations. -/
theorem memstat_used_le_total_mono (s : HeapState) (ops : List HeapOp)
    (hoff : s.offset ≤ HEAP_SIZE) (hall : ∀ op ∈ ops, OpOK s.heap_start op) :
    (∀ s' : HeapState, (memstat s').1 ≤ (memstat s').2) ∧
    (memstat s).1 ≤ (memstat (runOps s ops)).1 := by
  obtain ⟨_, hmono, _⟩ := runOps_spec ops s hoff hall
  exact ⟨fun s' => min_le_right _ _, min_le_min hmono (le_refl _)⟩

/-- C7 witness: a concrete alloc-then-dealloc run. -/
theorem memstat_used_le_total_mono_witness :
    (memstat ⟨0, 3⟩).1 ≤ (memstat ⟨0, 3⟩).2 ∧
    (memstat (init_heap 0)).1 ≤
      (memstat (runOps (init_heap 0)
        [HeapOp.opAlloc (Layout.mk 4 1), HeapOp.opDealloc 0 (Layout.mk 4 1)])).1 := by
  have hall : ∀ op ∈ [HeapOp.opAlloc (Layout.mk 4 1), HeapOp.opDealloc 0 (Layout.mk 4 1)],
      OpOK (init_heap 0).heap_start op := by
    intro op hop
    simp only [List.mem_cons, List.not_mem_nil, or_false] at hop
    rcases hop with rfl | rfl
    · exact ⟨⟨0, rfl⟩, by decide⟩
    · trivial
  have h := memstat_used_le_total_mono (init_heap 0)
    [HeapOp.opAlloc (Layout.mk 4 1), HeapOp.opDealloc 0 (Layout.mk 4 1)]
    (Nat.zero_le _) hall
  exact ⟨h.1 ⟨0, 3⟩, h.2⟩

/-- C9: the timer callback increments the tick counter by one, and at
the maximum `u64` value it wraps to zero. -/
theorem tick_increments_and_wraps (sh : Shell) :
    (tick sh).ticks = (sh.ticks + 1) % USIZE_CARD ∧
    (sh.ticks + 1 < USIZE_CARD → (tick sh).ticks = sh.ticks + 1) ∧
    (sh.ticks = USIZE_CARD - 1 → (tick sh).ticks = 0) := by
  refine ⟨rfl, ?_, ?_⟩
  · intro h
    show (sh.ticks + 1) % USIZE_CARD = sh.ticks + 1
    exact Nat.mod_eq_of_lt h
  · intro h
    show (sh.ticks + 1) % USIZE_CARD = 0
    rw [h]
    have hpos : 0 < USIZE_CARD := by
      have hU : USIZE_CARD = 2 ^ 64 := rfl
      have hp : (0:Nat) < 2 ^ 64 := by norm_num
      omega
    have hcancel : USIZE_CARD - 1 + 1 = USIZE_CARD := by omega
    rw [hcancel, Nat.mod_self]

/-- C9 witness: a small tick and the wrap-around tick. -/
theorem tick_increments_and_wraps_witness :
    (tick ⟨[], 5⟩).ticks = 6 ∧ (tick ⟨[], USIZE_CARD - 1⟩).ticks = 0 :=
  ⟨(tick_increments_and_wraps ⟨[], 5⟩).2.1 (by decide),
   (tick_increments_and_wraps ⟨[], USIZE_CARD - 1⟩).2.2 rfl⟩

/-- Reduction of `execute` on an input with a first word. -/
theorem execute_cons (sh : Shell) (h : HeapState) (cmd : List Char)
    (args : List (List Char)) (hsplit : split_whitespace sh.buf = cmd :: args) :
    execute sh h = ({ sh with buf := [] }, h, runCmd sh h cmd args) := by
  unfold execute
  rw [hsplit]

/-- Reduction of `execute` on an input with no words. -/
theorem execute_nil (sh : Shell) (h : HeapState)
    (hsplit : split_whitespace sh.buf = []) :
    execute sh h = ({ sh with buf := [] }, h, []) := by
  unfold execute
  rw [hsplit]

/-- Reduction of `handle_key` on the newline character. -/
theorem handle_key_newline (sh : Shell) (h : HeapState) :
    handle_key sh h (DecodedKey.unicode '\n') =
      ({ (execute sh h).1 with buf := [] }, (execute sh h).2.1,
        OutEvent.writeLine "" :: (execute sh h).2.2 ++ prompt) := rfl

/-- C4: in every reachable heap state, the `memstat` command prints
exactly `used: <n> / 102400 bytes` where `n` is the arena's cursor
`OFFSET`. -/
theorem memstat_cmd_prints_offset (h : HeapState) (hr : Reachable h) (t : Nat) :
    (execute ⟨("memstat").data, t⟩ h).2.2 =
      [OutEvent.writeLine ("used: " ++ Nat.repr h.offset ++ " / 102400 bytes")] := by
  have hred : (execute ⟨("memstat").data, t⟩ h).2.2 =
      [OutEvent.writeLine ("used: " ++ Nat.repr (min h.offset HEAP_SIZE) ++ " / " ++
        Nat.repr HEAP_SIZE ++ " bytes")] := rfl
  rw [hred, min_eq_left (reachable_offset_le h hr)]
  congr 1
  congr 1
  apply String.ext
  simp only [String.data_append]
  norm_num
  decide

/-- C4 witness: `memstat` right after `init_heap 0`. -/
theorem memstat_cmd_prints_offset_witness :
    (execute ⟨("memstat").data, 0⟩ (init_heap 0)).2.2 =
      [OutEvent.writeLine "used: 0 / 102400 bytes"] :=
  (memstat_cmd_prints_offset (init_heap 0) (Reachable.init 0) 0).trans (by decide)

/-- C8: a line whose first whitespace-delimited word is none of the five
built-ins makes the shell print `unknown: <name>`, clear its buffer and
reprint the prompt, leaving the heap and tick state untouched. -/
theorem unknown_command (sh : Shell) (h : HeapState) (cmd : List Char)
    (args : List (List Char)) (hsplit : split_whitespace sh.buf = cmd :: args)
    (h1 : cmd ≠ ("echo").data) (h2 : cmd ≠ ("clear").data)
    (h3 : cmd ≠ ("ticks").data) (h4 : cmd ≠ ("memstat").data)
    (h5 : cmd ≠ ("help").data) :
    handle_key sh h (DecodedKey.unicode '\n') =
      ({ buf := [], ticks := sh.ticks }, h,
        [OutEvent.writeLine "", OutEvent.writeLine ("unknown: " ++ String.mk cmd),
         OutEvent.write "> "]) := by
  have hcmd : runCmd sh h cmd args =
      [OutEvent.writeLine ("unknown: " ++ String.mk cmd)] := by
    unfold runCmd
    rw [if_neg h1, if_neg h2, if_neg h3, if_neg h4, if_neg h5]
  rw [handle_key_newline, execute_cons sh h cmd args hsplit, hcmd]
  rfl

/-- C8 witness: entering `bogus` prints `unknown: bogus`. -/
theorem unknown_command_witness :
    handle_key ⟨("bogus").data, 3⟩ (init_heap 0) (DecodedKey.unicode '\n') =
      (⟨[], 3⟩, init_heap 0,
        [OutEvent.writeLine "", OutEvent.writeLine "unknown: bogus",
         OutEvent.write "> "]) :=
  (unknown_command ⟨("bogus").data, 3⟩ (init_heap 0) ("bogus").data []
    (by decide) (by decide) (by decide) (by decide) (by decide) (by decide)).trans
    (by decide)

/-- C10: a line that is empty or all whitespace executes no command: the
newline handler emits only the newline and a fresh prompt, clears the
buffer, and leaves the tick counter and the heap state unchanged. -/
theorem blank_line_no_command (sh : Shell) (h : HeapState)
    (hws : ∀ c ∈ sh.buf, c.isWhitespace = true) :
    handle_key sh h (DecodedKey.unicode '\n') =
      ({ buf := [], ticks := sh.ticks }, h,
        [OutEvent.writeLine "", OutEvent.write "> "]) := by
  have hsplit : split_whitespace sh.buf = [] := splitWsAux_all_ws sh.buf hws
  rw [handle_key_newline, execute_nil sh h hsplit]
  rfl

/-- C10 witness: a line of two spaces. -/
theorem blank_line_no_command_witness :
    handle_key ⟨[' ', ' '], 7⟩ (init_heap 5) (DecodedKey.unicode '\n') =
      (⟨[], 7⟩, init_heap 5,
        [OutEvent.writeLine "", OutEvent.write "> "]) :=
  (blank_line_no_command ⟨[' ', ' '], 7⟩ (init_heap 5) (by decide)).trans (by decide)

/-- C5: the code bug in the backspace redraw. After typing `ab` (display
`> ab`, cursor at column 4), Backspace pops the buffer to `a` but
`redraw_line` erases only `2 + 1 = 3` cells — the length of the prompt
plus the buffer *after* the removal — so the deleted character at column
3 survives and the display still reads `> ab` instead of `> a`. -/
theorem backspace_leaves_stale_char :
    (handle_key ⟨("ab").data, 0⟩ (init_heap 0) DecodedKey.rawBackspace).1.buf
      = ("a").data ∧
    ((handle_key ⟨("ab").data, 0⟩ (init_heap 0) DecodedKey.rawBackspace).2.2).count
      (OutEvent.write " ") = 3 ∧
    (applyEvents (("> ab").data, 4)
      (handle_key ⟨("ab").data, 0⟩ (init_heap 0) DecodedKey.rawBackspace).2.2).1
      = ("> ab").data := by
  decide
